import Mathlib

/-!
Shallow embedding of the Google OIDC connector (`connector/google/google.go`).

The directory service is modelled as finite data: for each member key, the
successive page results its paging calls return (a page of group emails, or
an error).  The recursive group resolution (`getGroups`) is embedded with an
explicit fuel parameter; `none` models a computation that has not finished
within the given fuel, and a computable fuel bound is proved sufficient.
Distinct error constructions of the source are modelled as constructors of
inductive error types.
-/

namespace Google

/-- Result of one directory paging call: a page of group emails, or an error. -/
abbrev PageResult := Except String (List String)

/-- A directory service client (`admin.Service`): for each member key, the
successive pages its `Groups.List().UserKey(..).PageToken(..).Do()` calls
return.  A member key absent from the table yields a single empty page. -/
structure AdminService where
  pages : List (String × List PageResult)

/-- The successive page results of the paging calls for one member key. -/
def AdminService.pagesFor (srv : AdminService) (email : String) : List PageResult :=
  (srv.pages.lookup email).getD []

/-- The connector state built by `Config.Open` (fields relevant to the core). -/
structure googleConnector where
  redirectURI : String
  hostedDomains : List String
  groups : List String
  fetchTransitiveGroupMembership : Bool
  adminSrv : List (String × AdminService)

/-- The reserved wildcard routing key (`wildcardDomainToAdminEmail = "*"`). -/
def wildcardDomainToAdminEmail : String := "*"

/-- `extractDomainFromEmail`: the substring after the last `@`; the wildcard
symbol when the email contains no `@`. -/
def extractDomainFromEmail (email : String) : String :=
  if email.toList.contains '@' then
    String.mk ((email.toList.reverse.takeWhile (fun ch => ch ≠ '@')).reverse)
  else wildcardDomainToAdminEmail

/-- Errors produced by group resolution, one constructor per distinct error
construction in the source. -/
inductive GroupsError where
  /-- `unable to find super admin email, domainToAdminEmail for domain ... not set` -/
  | noDirectoryRoute (domain : String)
  /-- `could not list groups: %v` -/
  | listGroups (msg : String)
  /-- `could not list transitive groups: %v` -/
  | listTransitiveGroups (e : GroupsError)
deriving DecidableEq

/-- `findAdminService`: look up the directory client for a domain, falling back
to the wildcard entry; a routing error when neither exists. -/
def findAdminService (c : googleConnector) (domain : String) :
    Except GroupsError AdminService :=
  match c.adminSrv.lookup domain with
  | some adminSrv => .ok adminSrv
  | none =>
    match c.adminSrv.lookup wildcardDomainToAdminEmail with
    | some adminSrv => .ok adminSrv
    | none => .error (.noDirectoryRoute domain)

/-- The result of a (fueled) group-resolution step: `none` when fuel ran out,
otherwise an error or the accumulated groups together with the updated
visited set (the Go code mutates `checkedGroups` in place; here it is
threaded explicitly). -/
abbrev GroupsResult := Option (Except GroupsError (List String × List String))

/-- The inner `for _, group := range groupsList.Groups` loop of `getGroups`:
skip groups already in the visited set, otherwise mark them visited, append
them, and (when transitive fetching is on) expand them through the supplied
recursive call `getG` and append its results. -/
def processGroups (getG : String → List String → GroupsResult) (trans : Bool) :
    List String → List String → GroupsResult
  | [], checkedGroups => some (.ok ([], checkedGroups))
  | g :: rest, checkedGroups =>
    if checkedGroups.contains g then
      processGroups getG trans rest checkedGroups
    else if trans then
      match getG g (g :: checkedGroups) with
      | none => none
      | some (.error e) => some (.error (.listTransitiveGroups e))
      | some (.ok (transitiveGroups, ch1)) =>
        match processGroups getG trans rest ch1 with
        | none => none
        | some (.error e) => some (.error e)
        | some (.ok (userGroups, ch2)) =>
          some (.ok (g :: (transitiveGroups ++ userGroups), ch2))
    else
      match processGroups getG trans rest (g :: checkedGroups) with
      | none => none
      | some (.error e) => some (.error e)
      | some (.ok (userGroups, ch2)) => some (.ok (g :: userGroups, ch2))

/-- The outer paging loop of `getGroups`: each iteration performs one paging
call; a failed call aborts the whole resolution, a successful one has its
groups processed before the next page is fetched. -/
def processPages (getG : String → List String → GroupsResult) (trans : Bool) :
    List PageResult → List String → GroupsResult
  | [], checkedGroups => some (.ok ([], checkedGroups))
  | .error e :: _, _ => some (.error (.listGroups e))
  | .ok gs :: rest, checkedGroups =>
    match processGroups getG trans gs checkedGroups with
    | none => none
    | some (.error e) => some (.error e)
    | some (.ok (ug1, ch1)) =>
      match processPages getG trans rest ch1 with
      | none => none
      | some (.error e) => some (.error e)
      | some (.ok (ug2, ch2)) => some (.ok (ug1 ++ ug2, ch2))

/-- `getGroups` (`ResolveGroups` of the spec), with fuel bounding the
recursion depth: derive the member's domain, route to a directory client,
then page through its group listing, expanding unvisited groups. -/
def getGroups (c : googleConnector) :
    Nat → String → Bool → List String → GroupsResult
  | 0, _, _, _ => none
  | fuel + 1, email, fetchTransitiveGroupMembership, checkedGroups =>
    match findAdminService c (extractDomainFromEmail email) with
    | .error e => some (.error e)
    | .ok adminSrv =>
      processPages (fun g ch => getGroups c fuel g fetchTransitiveGroupMembership ch)
        fetchTransitiveGroupMembership (adminSrv.pagesFor email) checkedGroups

/-- The claims decoded from a verified ID token (`name`, `email`,
`email_verified`, `hd`). -/
structure IDTokenClaims where
  username : String
  email : String
  emailVerified : Bool
  hostedDomain : String

/-- A verified ID token: the subject together with its decoded claims.
Signature verification itself is a peer concern (the OIDC verifier). -/
structure IDToken where
  subject : String
  claims : IDTokenClaims

/-- The token response of the OAuth2 peer: an optional raw ID token from the
extra fields, and the refresh token. -/
structure TokenResponse where
  idToken : Option String
  refreshToken : String

/-- `connector.Identity` as assembled by `createIdentity`. -/
structure Identity where
  userID : String
  username : String
  email : String
  emailVerified : Bool
  connectorData : String
  groups : List String

/-- Errors of the shared identity assembly, one constructor per distinct
error construction in `createIdentity`. -/
inductive IdentityError where
  /-- `google: no id_token in token response` -/
  | missingIDToken
  /-- `google: failed to verify ID Token: %v` -/
  | verifyFailed (msg : String)
  /-- `oidc: unexpected hd claim %v` -/
  | domainNotAllowed (hd : String)
  /-- `google: could not retrieve groups: %v` -/
  | retrieveGroupsFailed (e : GroupsError)
  /-- `google: user %q is not in any of the required groups` -/
  | noAuthorizedGroup (username : String)
deriving DecidableEq

/-- Modelled from the spec: the whitelist intersection step of the shared
identity assembly ("intersect the resolved groups with the whitelist") —
the helper the source calls (`pkg/groups.Filter`) is code of this repository
outside the provided sources.  It keeps the resolved groups that appear in
the whitelist, in resolved order. -/
def pkgGroupsFilter (groups required : List String) : List String :=
  groups.filter (fun g => required.contains g)

/-- `createIdentity`: the shared identity assembly.  The OIDC verifier is an
external peer, passed as `verify`; `sGroups` is `s.Groups` of the requested
scopes.  Returns `none` when group resolution ran out of fuel. -/
def createIdentity (c : googleConnector) (verify : String → Except String IDToken)
    (fuel : Nat) (sGroups : Bool) (token : TokenResponse) :
    Option (Except IdentityError Identity) :=
  match token.idToken with
  | none => some (.error .missingIDToken)
  | some rawIDToken =>
    match verify rawIDToken with
    | .error e => some (.error (.verifyFailed e))
    | .ok idToken =>
      let claims := idToken.claims
      if c.hostedDomains.length > 0 ∧
          ¬ (c.hostedDomains.any (fun domain => claims.hostedDomain == domain)) then
        some (.error (.domainNotAllowed claims.hostedDomain))
      else
        let resolved : Option (Except IdentityError (List String)) :=
          if sGroups ∧ c.adminSrv.length > 0 then
            match getGroups c fuel claims.email c.fetchTransitiveGroupMembership [] with
            | none => none
            | some (.error e) => some (.error (.retrieveGroupsFailed e))
            | some (.ok (groups, _)) =>
              if c.groups.length > 0 then
                let filtered := pkgGroupsFilter groups c.groups
                if filtered.length = 0 then
                  some (.error (.noAuthorizedGroup claims.username))
                else some (.ok filtered)
              else some (.ok groups)
          else some (.ok [])
        match resolved with
        | none => none
        | some (.error e) => some (.error e)
        | some (.ok groups) =>
          some (.ok { userID := idToken.subject, username := claims.username,
                      email := claims.email, emailVerified := claims.emailVerified,
                      connectorData := token.refreshToken, groups := groups })

/-- Errors of the callback / refresh controller. -/
inductive CallbackError where
  /-- the `oauth2Error` value `&oauth2Error{errType, q.Get("error_description")}` -/
  | providerDenied (err errorDescription : String)
  /-- `google: failed to get token: %v` -/
  | getTokenFailed (msg : String)
  /-- an error surfaced unchanged from `createIdentity` -/
  | identityError (e : IdentityError)
deriving DecidableEq

/-- `oauth2Error.Error()`: the error code, with the description appended when
it is nonempty. -/
def oauth2ErrorMessage (err errorDescription : String) : String :=
  if errorDescription = "" then err else err ++ ": " ++ errorDescription

/-- `url.Values.Get`: the first value recorded for a query key, or `""`. -/
def qGet (q : List (String × String)) (key : String) : String :=
  (q.lookup key).getD ""

/-- `HandleCallback`: fail first on a provider-reported `error` query
parameter, otherwise exchange the `code` (the exchanger is an external peer)
and delegate to `createIdentity`. -/
def HandleCallback (c : googleConnector) (verify : String → Except String IDToken)
    (exchange : String → Except String TokenResponse) (fuel : Nat) (sGroups : Bool)
    (q : List (String × String)) : Option (Except CallbackError Identity) :=
  let errType := qGet q "error"
  if errType ≠ "" then
    some (.error (.providerDenied errType (qGet q "error_description")))
  else
    match exchange (qGet q "code") with
    | .error e => some (.error (.getTokenFailed e))
    | .ok token =>
      match createIdentity c verify fuel sGroups token with
      | none => none
      | some (.error e) => some (.error (.identityError e))
      | some (.ok i) => some (.ok i)

/-- `Refresh`: rebuild a token source from the stored reauthentication token
(`identity.ConnectorData`) and delegate to `createIdentity`.  The token
source (the OAuth2 peer) receives the stored refresh token. -/
def Refresh (c : googleConnector) (verify : String → Except String IDToken)
    (tokenSource : String → Except String TokenResponse) (fuel : Nat) (sGroups : Bool)
    (identity : Identity) : Option (Except CallbackError Identity) :=
  match tokenSource identity.connectorData with
  | .error e => some (.error (.getTokenFailed e))
  | .ok token =>
    match createIdentity c verify fuel sGroups token with
    | none => none
    | some (.error e) => some (.error (.identityError e))
    | some (.ok i) => some (.ok i)

/-- `LoginURL`: check the callback URL against the configured redirect URI and
assemble the auth-code URL options; the URL itself is modelled as the pair of
the `state` and the list of extra parameters attached. -/
def LoginURL (c : googleConnector) (offlineAccess : Bool) (callbackURL state : String) :
    Except String (String × List (String × String)) :=
  if c.redirectURI ≠ callbackURL then
    .error ("expected callback URL " ++ callbackURL ++
      " did not match the URL in the config " ++ c.redirectURI)
  else
    let opts : List (String × String) :=
      if c.hostedDomains.length > 0 then
        let preferredDomain := if c.hostedDomains.length > 1 then "*"
          else c.hostedDomains.headI
        [("hd", preferredDomain)]
      else []
    let opts := if offlineAccess then
        opts ++ [("access_type", "offline"), ("prompt", "consent")]
      else opts
    .ok (state, opts)

/-! ### Specification-level helpers used to state the claims -/

/-- The groups on one page result (none for a failed call). -/
def pageGroups : PageResult → List String
  | .ok gs => gs
  | .error _ => []

/-- All direct groups the routed directory client reports for a member, over
all of its pages (`[]` when no route exists). -/
def directGroups (c : googleConnector) (email : String) : List String :=
  match findAdminService c (extractDomainFromEmail email) with
  | .error _ => []
  | .ok adminSrv => ((adminSrv.pagesFor email).map pageGroups).flatten

/-- Collect the pages of one member's listing in order, stopping at the first
failed paging call with the error `getGroups` would produce for it. -/
def collectPages : List PageResult → Except GroupsError (List String)
  | [] => .ok []
  | .error e :: _ => .error (.listGroups e)
  | .ok gs :: rest =>
    match collectPages rest with
    | .error e => .error e
    | .ok l => .ok (gs ++ l)

/-- Drop the elements already in `seen`, and later duplicates, keeping first
occurrences — the effect of the visited set on a single listing. -/
def dedupFirstAux : List String → List String → List String
  | [], _ => []
  | g :: rest, seen =>
    if seen.contains g then dedupFirstAux rest seen
    else g :: dedupFirstAux rest (g :: seen)

/-- Remove duplicates keeping first occurrences. -/
def dedupFirst (l : List String) : List String := dedupFirstAux l []

/-- Every group email appearing anywhere in one directory client's data. -/
def serviceGroups (srv : AdminService) : List String :=
  (srv.pages.map (fun p => (p.2.map pageGroups).flatten)).flatten

/-- Every group email appearing anywhere in the connector's directory data —
a finite universe bounding the work of the resolution. -/
def universeGroups (c : googleConnector) : List String :=
  (c.adminSrv.map (fun p => serviceGroups p.2)).flatten

/-- How many occurrences in the universe are not yet visited; the measure that
shrinks whenever the resolution expands a new group. -/
def uncheckedCount (c : googleConnector) (checkedGroups : List String) : Nat :=
  ((universeGroups c).filter (fun g => ! checkedGroups.contains g)).length

/-- Reachability in the membership graph: the groups that `root` is directly
in, and the groups any reachable group is directly in. -/
inductive Reachable (c : googleConnector) (root : String) : String → Prop
  | direct {g} : g ∈ directGroups c root → Reachable c root g
  | step {g g'} : Reachable c root g → g' ∈ directGroups c g → Reachable c root g'

/-- The direct memberships of one member: route, then collect all pages. -/
def directMemberships (c : googleConnector) (email : String) :
    Except GroupsError (List String) :=
  match findAdminService c (extractDomainFromEmail email) with
  | .error e => .error e
  | .ok adminSrv => collectPages (adminSrv.pagesFor email)

/-! ### Concrete scenario fixtures -/

/-- The directory client of the spec's concrete scenario: alice is directly in
`eng@example.com`, and `eng@example.com` is directly in `all@example.com`. -/
def clientX : AdminService :=
  ⟨[("alice@example.com", [.ok ["eng@example.com"]]),
    ("eng@example.com", [.ok ["all@example.com"]])]⟩

/-- Connector with routing table `{example.com → clientX}`. -/
def aliceConn : googleConnector := ⟨"", [], [], true, [("example.com", clientX)]⟩

/-- A directory containing a membership cycle: the user is in group `a`,
`a` is a member of `b`, and `b` is a member of `a`. -/
def cycleSrv : AdminService :=
  ⟨[("user@x.com", [.ok ["a@x.com"]]),
    ("a@x.com", [.ok ["b@x.com"]]),
    ("b@x.com", [.ok ["a@x.com"]])]⟩

/-- Connector routing `x.com` to the cyclic directory. -/
def cycleConn : googleConnector := ⟨"", [], [], true, [("x.com", cycleSrv)]⟩

/-- A directory whose second paging call for the user fails after the first
page already reported a group. -/
def failSrv : AdminService :=
  ⟨[("user@x.com", [.ok ["a@x.com"], .error "boom"]), ("a@x.com", [.ok []])]⟩

/-- Connector routing `x.com` to the failing directory. -/
def failConn : googleConnector := ⟨"", [], [], true, [("x.com", failSrv)]⟩

/-- A verifier peer returning a fixed verified token whose hosted-domain claim
is `Example.com`. -/
def exVerify : String → Except String IDToken :=
  fun _ => .ok ⟨"sub-1", ⟨"Alice", "alice@example.com", true, "Example.com"⟩⟩

/-- Connector whose hosted-domain whitelist is exactly `["example.com"]`. -/
def exConn : googleConnector := ⟨"", ["example.com"], [], false, []⟩

/-- A token response carrying a raw ID token and a refresh token. -/
def exToken : TokenResponse := ⟨some "raw", "refresh-1"⟩

/-- Connector with a non-empty group whitelist but an empty routing table. -/
def c9Conn : googleConnector := ⟨"", [], ["admins@example.com"], true, []⟩

/-- Connector with a group whitelist `["eng@example.com"]` and the alice
routing table. -/
def c5Conn : googleConnector :=
  ⟨"", [], ["eng@example.com"], true, [("example.com", clientX)]⟩

/-! ### List utilities -/

theorem lookup_mem {β : Type} :
    ∀ {l : List (String × β)} {a : String} {b : β}, l.lookup a = some b → (a, b) ∈ l := by
  intro l
  induction l with
  | nil => intro a b h; simp [List.lookup] at h
  | cons p rest ih =>
    intro a b h
    obtain ⟨k, v⟩ := p
    cases hak : (a == k) with
    | true =>
      simp only [List.lookup, hak] at h
      obtain rfl : v = b := by simpa using h
      obtain rfl : a = k := by simpa using hak
      exact List.mem_cons_self _ _
    | false =>
      simp only [List.lookup, hak] at h
      exact List.mem_cons_of_mem _ (ih h)

theorem takeWhile_append_stop {p : Char → Bool} :
    ∀ (a : List Char) {y : Char} (b : List Char), (∀ x ∈ a, p x = true) → p y = false →
      (a ++ y :: b).takeWhile p = a := by
  intro a
  induction a with
  | nil => intro y b _ hy; simp [List.takeWhile_cons, hy]
  | cons x a ih =>
    intro y b hall hy
    have hx : p x = true := hall x (by simp)
    simp only [List.cons_append, List.takeWhile_cons, hx, if_true]
    rw [ih b (fun z hz => hall z (by simp [hz])) hy]

theorem uncheckedCount_lt (c : googleConnector) {g : String} {checked : List String}
    (hg : g ∈ universeGroups c) (hnc : ¬ checked.contains g = true) :
    uncheckedCount c (g :: checked) < uncheckedCount c checked := by
  unfold uncheckedCount
  have hsplit : (universeGroups c).filter (fun x => ! (g :: checked).contains x) =
      ((universeGroups c).filter (fun x => ! checked.contains x)).filter
        (fun x => ! (x == g)) := by
    rw [List.filter_filter]
    refine List.filter_congr (fun x _ => ?_)
    simp only [List.contains_cons, Bool.not_or, Bool.and_comm]
  rw [hsplit]
  refine List.length_filter_lt_length_iff_exists.mpr ⟨g, ?_, by simp⟩
  refine List.mem_filter.mpr ⟨hg, ?_⟩
  simpa using hnc

theorem uncheckedCount_le_of_subset (c : googleConnector) {ch1 ch2 : List String}
    (hsub : ∀ x, x ∈ ch1 → x ∈ ch2) : uncheckedCount c ch2 ≤ uncheckedCount c ch1 := by
  refine (List.monotone_filter_right _ (fun x hx => ?_)).length_le
  simp only [Bool.not_eq_true', ← Bool.not_eq_true] at hx ⊢
  rw [List.elem_iff] at hx ⊢
  exact fun hmem => hx (hsub x hmem)

/-! ### Locating directory data inside the connector -/

theorem findAdminService_mem {c : googleConnector} {d : String} {srv : AdminService}
    (h : findAdminService c d = .ok srv) : ∃ d', (d', srv) ∈ c.adminSrv := by
  rw [findAdminService] at h
  cases h1 : c.adminSrv.lookup d with
  | some s =>
    rw [h1] at h
    obtain rfl : s = srv := by simpa using h
    exact ⟨d, lookup_mem h1⟩
  | none =>
    rw [h1] at h
    cases h2 : c.adminSrv.lookup wildcardDomainToAdminEmail with
    | some s =>
      rw [h2] at h
      obtain rfl : s = srv := by simpa using h
      exact ⟨wildcardDomainToAdminEmail, lookup_mem h2⟩
    | none => rw [h2] at h; simp at h

theorem pagesFor_mem_universe {c : googleConnector} {srv : AdminService}
    (hsrv : ∃ d', (d', srv) ∈ c.adminSrv) {email : String} {pr : PageResult}
    (hpr : pr ∈ srv.pagesFor email) {g : String} (hg : g ∈ pageGroups pr) :
    g ∈ universeGroups c := by
  obtain ⟨d', hmem⟩ := hsrv
  rw [AdminService.pagesFor] at hpr
  cases h1 : srv.pages.lookup email with
  | none => rw [h1] at hpr; simp at hpr
  | some prs =>
    rw [h1] at hpr
    simp only [Option.getD_some] at hpr
    have hentry : (email, prs) ∈ srv.pages := lookup_mem h1
    have hsg : g ∈ serviceGroups srv := by
      rw [serviceGroups, List.mem_flatten]
      refine ⟨(prs.map pageGroups).flatten, List.mem_map_of_mem _ hentry, ?_⟩
      rw [List.mem_flatten]
      exact ⟨pageGroups pr, List.mem_map_of_mem _ hpr, hg⟩
    rw [universeGroups, List.mem_flatten]
    exact ⟨serviceGroups srv, List.mem_map_of_mem _ hmem, hsg⟩

/-! ### Invariants of successful resolution: the final visited set is the
discovered groups (reversed) on top of the initial one, stays duplicate-free,
and contains every group processed. -/

theorem processGroups_ok_inv (getG : String → List String → GroupsResult) (trans : Bool)
    (hG : ∀ g ch tg ch', getG g ch = some (.ok (tg, ch')) →
      ch' = tg.reverse ++ ch ∧ (ch.Nodup → ch'.Nodup)) :
    ∀ gs checked ug ch', processGroups getG trans gs checked = some (.ok (ug, ch')) →
      ch' = ug.reverse ++ checked ∧ (checked.Nodup → ch'.Nodup) ∧
        ∀ g ∈ gs, g ∈ ch' := by
  intro gs
  induction gs with
  | nil =>
    intro checked ug ch' h
    simp only [processGroups, Option.some.injEq, Except.ok.injEq, Prod.mk.injEq] at h
    obtain ⟨rfl, rfl⟩ := h
    simp
  | cons g rest ih =>
    intro checked ug ch' h
    simp only [processGroups] at h
    by_cases hc : checked.contains g = true
    · rw [if_pos hc] at h
      obtain ⟨hsh, hnd, hall⟩ := ih checked ug ch' h
      refine ⟨hsh, hnd, ?_⟩
      intro x hx
      rcases List.mem_cons.mp hx with rfl | hx
      · rw [hsh]
        exact List.mem_append_right _ (List.elem_iff.mp hc)
      · exact hall x hx
    · rw [if_neg hc] at h
      have hgn : g ∉ checked := fun hmem => hc (List.elem_iff.mpr hmem)
      by_cases ht : trans = true
      · rw [if_pos ht] at h
        cases hget : getG g (g :: checked) with
        | none => rw [hget] at h; simp at h
        | some r =>
          rw [hget] at h
          cases r with
          | error e => simp at h
          | ok p =>
            obtain ⟨tg, ch1⟩ := p
            simp only at h
            cases hrest : processGroups getG trans rest ch1 with
            | none => rw [hrest] at h; simp at h
            | some r2 =>
              rw [hrest] at h
              cases r2 with
              | error e => simp at h
              | ok p2 =>
                obtain ⟨ug2, ch2⟩ := p2
                simp only [Option.some.injEq, Except.ok.injEq, Prod.mk.injEq] at h
                obtain ⟨rfl, rfl⟩ := h
                obtain ⟨hsh1, hnd1⟩ := hG g (g :: checked) tg ch1 hget
                obtain ⟨hsh2, hnd2, hall2⟩ := ih ch1 ug2 ch2 hrest
                have hshape : ch2 = (g :: (tg ++ ug2)).reverse ++ checked := by
                  rw [hsh2, hsh1]
                  simp [List.append_assoc]
                refine ⟨hshape, ?_, ?_⟩
                · intro hch
                  exact hnd2 (hnd1 (by simpa using ⟨hgn, hch⟩))
                · intro x hx
                  rcases List.mem_cons.mp hx with rfl | hx
                  · rw [hsh2]
                    exact List.mem_append_right _ (by rw [hsh1]; simp)
                  · exact hall2 x hx
      · rw [if_neg ht] at h
        cases hrest : processGroups getG trans rest (g :: checked) with
        | none => rw [hrest] at h; simp at h
        | some r2 =>
          rw [hrest] at h
          cases r2 with
          | error e => simp at h
          | ok p2 =>
            obtain ⟨ug2, ch2⟩ := p2
            simp only [Option.some.injEq, Except.ok.injEq, Prod.mk.injEq] at h
            obtain ⟨rfl, rfl⟩ := h
            obtain ⟨hsh2, hnd2, hall2⟩ := ih (g :: checked) ug2 ch2 hrest
            have hshape : ch2 = (g :: ug2).reverse ++ checked := by
              rw [hsh2]; simp [List.append_assoc]
            refine ⟨hshape, ?_, ?_⟩
            · intro hch
              exact hnd2 (by simpa using ⟨hgn, hch⟩)
            · intro x hx
              rcases List.mem_cons.mp hx with rfl | hx
              · rw [hsh2]; exact List.mem_append_right _ (by simp)
              · exact hall2 x hx

theorem processPages_ok_inv (getG : String → List String → GroupsResult) (trans : Bool)
    (hG : ∀ g ch tg ch', getG g ch = some (.ok (tg, ch')) →
      ch' = tg.reverse ++ ch ∧ (ch.Nodup → ch'.Nodup)) :
    ∀ ps checked ug ch', processPages getG trans ps checked = some (.ok (ug, ch')) →
      ch' = ug.reverse ++ checked ∧ (checked.Nodup → ch'.Nodup) ∧
        ∀ pr ∈ ps, ∀ g ∈ pageGroups pr, g ∈ ch' := by
  intro ps
  induction ps with
  | nil =>
    intro checked ug ch' h
    simp only [processPages, Option.some.injEq, Except.ok.injEq, Prod.mk.injEq] at h
    obtain ⟨rfl, rfl⟩ := h
    simp
  | cons pr rest ih =>
    intro checked ug ch' h
    cases pr with
    | error e => simp only [processPages] at h; simp at h
    | ok gs =>
      simp only [processPages] at h
      cases hpg : processGroups getG trans gs checked with
      | none => rw [hpg] at h; simp at h
      | some r =>
        rw [hpg] at h
        cases r with
        | error e => simp at h
        | ok p =>
          obtain ⟨ug1, ch1⟩ := p
          simp only at h
          cases hrest : processPages getG trans rest ch1 with
          | none => rw [hrest] at h; simp at h
          | some r2 =>
            rw [hrest] at h
            cases r2 with
            | error e => simp at h
            | ok p2 =>
              obtain ⟨ug2, ch2⟩ := p2
              simp only [Option.some.injEq, Except.ok.injEq, Prod.mk.injEq] at h
              obtain ⟨rfl, rfl⟩ := h
              obtain ⟨hsh1, hnd1, hall1⟩ := processGroups_ok_inv getG trans hG gs checked ug1 ch1 hpg
              obtain ⟨hsh2, hnd2, hall2⟩ := ih ch1 ug2 ch2 hrest
              have hshape : ch2 = (ug1 ++ ug2).reverse ++ checked := by
                rw [hsh2, hsh1]; simp [List.append_assoc]
              refine ⟨hshape, fun hch => hnd2 (hnd1 hch), ?_⟩
              intro pr' hpr' g hg
              rcases List.mem_cons.mp hpr' with rfl | hpr'
              · have : g ∈ ch1 := hall1 g (by simpa [pageGroups] using hg)
                rw [hsh2]
                exact List.mem_append_right _ this
              · exact hall2 pr' hpr' g hg

theorem getGroups_ok_inv (c : googleConnector) :
    ∀ fuel email trans checked ug ch',
      getGroups c fuel email trans checked = some (.ok (ug, ch')) →
      ch' = ug.reverse ++ checked ∧ (checked.Nodup → ch'.Nodup) ∧
        ∀ g ∈ directGroups c email, g ∈ ch' := by
  intro fuel
  induction fuel with
  | zero => intro email trans checked ug ch' h; simp [getGroups] at h
  | succ fuel ih =>
    intro email trans checked ug ch' h
    rw [getGroups] at h
    cases hr : findAdminService c (extractDomainFromEmail email) with
    | error e => rw [hr] at h; simp at h
    | ok srv =>
      rw [hr] at h
      have hG : ∀ g ch tg ch'', (fun g ch => getGroups c fuel g trans ch) g ch =
          some (.ok (tg, ch'')) → ch'' = tg.reverse ++ ch ∧ (ch.Nodup → ch''.Nodup) := by
        intro g ch tg ch'' hg
        obtain ⟨h1, h2, _⟩ := ih g trans ch tg ch'' hg
        exact ⟨h1, h2⟩
      obtain ⟨h1, h2, h3⟩ := processPages_ok_inv _ trans hG (srv.pagesFor email) checked ug ch' h
      refine ⟨h1, h2, ?_⟩
      intro g hg
      rw [directGroups, hr] at hg
      rw [List.mem_flatten] at hg
      obtain ⟨l, hl, hgl⟩ := hg
      rw [List.mem_map] at hl
      obtain ⟨pr, hpr, rfl⟩ := hl
      exact h3 pr hpr g hgl

/-! ### Adequacy: a computable fuel bound makes the resolution finish -/

theorem processGroups_isSome (getG : String → List String → GroupsResult) (trans : Bool)
    (c : googleConnector) (fuel : Nat)
    (hGinv : ∀ g ch tg ch', getG g ch = some (.ok (tg, ch')) →
      ch' = tg.reverse ++ ch ∧ (ch.Nodup → ch'.Nodup))
    (hGsome : ∀ g ch, uncheckedCount c ch < fuel → (getG g ch).isSome) :
    ∀ gs checked, (∀ g ∈ gs, g ∈ universeGroups c) → uncheckedCount c checked ≤ fuel →
      (processGroups getG trans gs checked).isSome := by
  intro gs
  induction gs with
  | nil => intro checked _ _; simp [processGroups]
  | cons g rest ih =>
    intro checked hall hcount
    simp only [processGroups]
    by_cases hc : checked.contains g = true
    · rw [if_pos hc]
      exact ih checked (fun x hx => hall x (List.mem_cons_of_mem _ hx)) hcount
    · rw [if_neg hc]
      have hguniv : g ∈ universeGroups c := hall g (List.mem_cons_self _ _)
      have hlt : uncheckedCount c (g :: checked) < fuel :=
        lt_of_lt_of_le (uncheckedCount_lt c hguniv hc) hcount
      by_cases ht : trans = true
      · rw [if_pos ht]
        have hsome := hGsome g (g :: checked) hlt
        cases hget : getG g (g :: checked) with
        | none => rw [hget] at hsome; simp at hsome
        | some r =>
          cases r with
          | error e => simp
          | ok p =>
            obtain ⟨tg, ch1⟩ := p
            have hcount1 : uncheckedCount c ch1 ≤ fuel := by
              have hsub : ∀ x, x ∈ g :: checked → x ∈ ch1 := by
                obtain ⟨hsh, _⟩ := hGinv g (g :: checked) tg ch1 hget
                rw [hsh]
                exact fun x hx => List.mem_append_right _ hx
              have h1 : uncheckedCount c ch1 ≤ uncheckedCount c (g :: checked) :=
                uncheckedCount_le_of_subset c hsub
              omega
            have hrs := ih ch1 (fun x hx => hall x (List.mem_cons_of_mem _ hx)) hcount1
            dsimp only
            cases hrest : processGroups getG trans rest ch1 with
            | none => rw [hrest] at hrs; simp at hrs
            | some r2 =>
              cases r2 with
              | error e => simp
              | ok p2 => obtain ⟨ug2, ch2⟩ := p2; simp
      · rw [if_neg ht]
        have hrs := ih (g :: checked)
          (fun x hx => hall x (List.mem_cons_of_mem _ hx)) (le_of_lt hlt)
        cases hrest : processGroups getG trans rest (g :: checked) with
        | none => rw [hrest] at hrs; simp at hrs
        | some r2 =>
          cases r2 with
          | error e => simp
          | ok p2 => obtain ⟨ug2, ch2⟩ := p2; simp

theorem processPages_isSome (getG : String → List String → GroupsResult) (trans : Bool)
    (c : googleConnector) (fuel : Nat)
    (hGinv : ∀ g ch tg ch', getG g ch = some (.ok (tg, ch')) →
      ch' = tg.reverse ++ ch ∧ (ch.Nodup → ch'.Nodup))
    (hGsome : ∀ g ch, uncheckedCount c ch < fuel → (getG g ch).isSome) :
    ∀ ps checked, (∀ pr ∈ ps, ∀ g ∈ pageGroups pr, g ∈ universeGroups c) →
      uncheckedCount c checked ≤ fuel → (processPages getG trans ps checked).isSome := by
  intro ps
  induction ps with
  | nil => intro checked _ _; simp [processPages]
  | cons pr rest ih =>
    intro checked hall hcount
    cases pr with
    | error e => simp [processPages]
    | ok gs =>
      simp only [processPages]
      have hpgall : ∀ g ∈ gs, g ∈ universeGroups c := by
        intro g hg
        exact hall _ (List.mem_cons_self _ _) g (by simpa [pageGroups] using hg)
      have hPG := processGroups_isSome getG trans c fuel hGinv hGsome gs checked hpgall hcount
      cases hpg : processGroups getG trans gs checked with
      | none => rw [hpg] at hPG; simp at hPG
      | some r =>
        cases r with
        | error e => simp
        | ok p =>
          obtain ⟨ug1, ch1⟩ := p
          have hcount1 : uncheckedCount c ch1 ≤ fuel := by
            obtain ⟨hsh, _, _⟩ := processGroups_ok_inv getG trans hGinv gs checked ug1 ch1 hpg
            have hsub : ∀ x, x ∈ checked → x ∈ ch1 := by
              rw [hsh]
              exact fun x hx => List.mem_append_right _ hx
            have h1 : uncheckedCount c ch1 ≤ uncheckedCount c checked :=
              uncheckedCount_le_of_subset c hsub
            omega
          have hrs := ih ch1 (fun pr' hpr' => hall pr' (List.mem_cons_of_mem _ hpr')) hcount1
          dsimp only
          cases hrest : processPages getG trans rest ch1 with
          | none => rw [hrest] at hrs; simp at hrs
          | some r2 =>
            cases r2 with
            | error e => simp
            | ok p2 => obtain ⟨ug2, ch2⟩ := p2; simp

theorem getGroups_isSome (c : googleConnector) :
    ∀ fuel email trans checked, uncheckedCount c checked < fuel →
      (getGroups c fuel email trans checked).isSome := by
  intro fuel
  induction fuel with
  | zero => intro email trans checked h; exact absurd h (Nat.not_lt_zero _)
  | succ fuel ih =>
    intro email trans checked hcount
    rw [getGroups]
    cases hr : findAdminService c (extractDomainFromEmail email) with
    | error e => simp
    | ok srv =>
      have hGinv : ∀ g ch tg ch', getGroups c fuel g trans ch = some (.ok (tg, ch')) →
          ch' = tg.reverse ++ ch ∧ (ch.Nodup → ch'.Nodup) := by
        intro g ch tg ch' hg
        obtain ⟨h1, h2, _⟩ := getGroups_ok_inv c fuel g trans ch tg ch' hg
        exact ⟨h1, h2⟩
      refine processPages_isSome _ trans c fuel hGinv
        (fun g ch h => ih g trans ch h) (srv.pagesFor email) checked ?_ (by omega)
      intro pr hpr g hg
      exact pagesFor_mem_universe (findAdminService_mem hr) hpr hg

/-! ### Resolution with transitive expansion disabled computes the direct
memberships, first occurrences kept -/

theorem processGroups_false (getG : String → List String → GroupsResult) :
    ∀ gs checked, processGroups getG false gs checked =
      some (.ok (dedupFirstAux gs checked,
        (dedupFirstAux gs checked).reverse ++ checked)) := by
  intro gs
  induction gs with
  | nil => intro checked; simp [processGroups, dedupFirstAux]
  | cons g rest ih =>
    intro checked
    simp only [processGroups, dedupFirstAux]
    by_cases hc : checked.contains g = true
    · rw [if_pos hc, if_pos hc]
      exact ih checked
    · rw [if_neg hc, if_neg hc]
      simp only [Bool.false_eq_true, if_false]
      rw [ih (g :: checked)]
      dsimp only
      simp [List.append_assoc]

theorem dedupFirstAux_append : ∀ (a b seen : List String),
    dedupFirstAux (a ++ b) seen =
      dedupFirstAux a seen ++ dedupFirstAux b ((dedupFirstAux a seen).reverse ++ seen) := by
  intro a
  induction a with
  | nil => intro b seen; simp [dedupFirstAux]
  | cons g a ih =>
    intro b seen
    simp only [List.cons_append, dedupFirstAux]
    by_cases hc : seen.contains g = true
    · rw [if_pos hc, if_pos hc]
      exact ih b seen
    · rw [if_neg hc, if_neg hc]
      simp only [List.append_eq]
      rw [ih b (g :: seen)]
      simp [List.append_assoc]

theorem processPages_false (getG : String → List String → GroupsResult) :
    ∀ ps checked, processPages getG false ps checked =
      (match collectPages ps with
       | .error e => some (.error e)
       | .ok l => some (.ok (dedupFirstAux l checked,
           (dedupFirstAux l checked).reverse ++ checked))) := by
  intro ps
  induction ps with
  | nil => intro checked; simp [processPages, collectPages, dedupFirstAux]
  | cons pr rest ih =>
    intro checked
    cases pr with
    | error e => simp [processPages, collectPages]
    | ok gs =>
      simp only [processPages, collectPages]
      rw [processGroups_false getG gs checked]
      dsimp only
      rw [ih ((dedupFirstAux gs checked).reverse ++ checked)]
      cases hcp : collectPages rest with
      | error e => dsimp only
      | ok l =>
        dsimp only
        rw [dedupFirstAux_append]
        simp [List.append_assoc]

theorem getGroups_false (c : googleConnector) (fuel : Nat) (email : String)
    (checked : List String) :
    getGroups c (fuel + 1) email false checked =
      (match directMemberships c email with
       | .error e => some (.error e)
       | .ok l => some (.ok (dedupFirstAux l checked,
           (dedupFirstAux l checked).reverse ++ checked))) := by
  rw [getGroups, directMemberships]
  cases hr : findAdminService c (extractDomainFromEmail email) with
  | error e => dsimp only
  | ok srv => exact processPages_false _ _ _

/-! ### Soundness and closure: everything discovered is reachable, and the
final visited set is closed under direct membership of discovered groups -/

theorem Reachable.prepend {c : googleConnector} {root g x : String}
    (h : Reachable c g x) (hg : g ∈ directGroups c root) : Reachable c root x := by
  induction h with
  | direct hx => exact .step (.direct hg) hx
  | step hy hx ih => exact .step ih hx

theorem processGroups_reach (getG : String → List String → GroupsResult)
    (c : googleConnector) (root : String)
    (hGinv : ∀ g ch tg ch', getG g ch = some (.ok (tg, ch')) →
      ch' = tg.reverse ++ ch ∧ (ch.Nodup → ch'.Nodup))
    (hGreach : ∀ g ch tg ch', getG g ch = some (.ok (tg, ch')) →
      (∀ x ∈ tg, Reachable c g x) ∧ (∀ x ∈ directGroups c g, x ∈ ch') ∧
      (∀ y ∈ tg, ∀ x ∈ directGroups c y, x ∈ ch')) :
    ∀ gs checked ug ch', (∀ g ∈ gs, g ∈ directGroups c root) →
      processGroups getG true gs checked = some (.ok (ug, ch')) →
      (∀ x ∈ ug, Reachable c root x) ∧
      (∀ y ∈ ug, ∀ x ∈ directGroups c y, x ∈ ch') := by
  intro gs
  induction gs with
  | nil =>
    intro checked ug ch' _ h
    simp only [processGroups, Option.some.injEq, Except.ok.injEq, Prod.mk.injEq] at h
    obtain ⟨rfl, rfl⟩ := h
    simp
  | cons g rest ih =>
    intro checked ug ch' hall h
    simp only [processGroups] at h
    by_cases hc : checked.contains g = true
    · rw [if_pos hc] at h
      exact ih checked ug ch' (fun x hx => hall x (List.mem_cons_of_mem _ hx)) h
    · rw [if_neg hc, if_pos trivial] at h
      cases hget : getG g (g :: checked) with
      | none => rw [hget] at h; simp at h
      | some r =>
        rw [hget] at h
        cases r with
        | error e => simp at h
        | ok p =>
          obtain ⟨tg, ch1⟩ := p
          simp only at h
          cases hrest : processGroups getG true rest ch1 with
          | none => rw [hrest] at h; simp at h
          | some r2 =>
            rw [hrest] at h
            cases r2 with
            | error e => simp at h
            | ok p2 =>
              obtain ⟨ug2, ch2⟩ := p2
              simp only [Option.some.injEq, Except.ok.injEq, Prod.mk.injEq] at h
              obtain ⟨rfl, rfl⟩ := h
              have hgdir : g ∈ directGroups c root := hall g (List.mem_cons_self _ _)
              obtain ⟨hrtg, hdir, hclo⟩ := hGreach g (g :: checked) tg ch1 hget
              obtain ⟨hr2, hc2⟩ :=
                ih ch1 ug2 ch2 (fun x hx => hall x (List.mem_cons_of_mem _ hx)) hrest
              have hsub12 : ∀ x, x ∈ ch1 → x ∈ ch2 := by
                obtain ⟨hsh2, _, _⟩ :=
                  processGroups_ok_inv getG true hGinv rest ch1 ug2 ch2 hrest
                rw [hsh2]
                exact fun x hx => List.mem_append_right _ hx
              constructor
              · intro x hx
                rcases List.mem_cons.mp hx with rfl | hx
                · exact .direct hgdir
                · rcases List.mem_append.mp hx with hx | hx
                  · exact (hrtg x hx).prepend hgdir
                  · exact hr2 x hx
              · intro y hy x hx
                rcases List.mem_cons.mp hy with rfl | hy
                · exact hsub12 x (hdir x hx)
                · rcases List.mem_append.mp hy with hy | hy
                  · exact hsub12 x (hclo y hy x hx)
                  · exact hc2 y hy x hx

theorem processPages_reach (getG : String → List String → GroupsResult)
    (c : googleConnector) (root : String)
    (hGinv : ∀ g ch tg ch', getG g ch = some (.ok (tg, ch')) →
      ch' = tg.reverse ++ ch ∧ (ch.Nodup → ch'.Nodup))
    (hGreach : ∀ g ch tg ch', getG g ch = some (.ok (tg, ch')) →
      (∀ x ∈ tg, Reachable c g x) ∧ (∀ x ∈ directGroups c g, x ∈ ch') ∧
      (∀ y ∈ tg, ∀ x ∈ directGroups c y, x ∈ ch')) :
    ∀ ps checked ug ch', (∀ pr ∈ ps, ∀ g ∈ pageGroups pr, g ∈ directGroups c root) →
      processPages getG true ps checked = some (.ok (ug, ch')) →
      (∀ x ∈ ug, Reachable c root x) ∧
      (∀ y ∈ ug, ∀ x ∈ directGroups c y, x ∈ ch') := by
  intro ps
  induction ps with
  | nil =>
    intro checked ug ch' _ h
    simp only [processPages, Option.some.injEq, Except.ok.injEq, Prod.mk.injEq] at h
    obtain ⟨rfl, rfl⟩ := h
    simp
  | cons pr rest ih =>
    intro checked ug ch' hall h
    cases pr with
    | error e => simp only [processPages] at h; simp at h
    | ok gs =>
      simp only [processPages] at h
      cases hpg : processGroups getG true gs checked with
      | none => rw [hpg] at h; simp at h
      | some r =>
        rw [hpg] at h
        cases r with
        | error e => simp at h
        | ok p =>
          obtain ⟨ug1, ch1⟩ := p
          simp only at h
          cases hrest : processPages getG true rest ch1 with
          | none => rw [hrest] at h; simp at h
          | some r2 =>
            rw [hrest] at h
            cases r2 with
            | error e => simp at h
            | ok p2 =>
              obtain ⟨ug2, ch2⟩ := p2
              simp only [Option.some.injEq, Except.ok.injEq, Prod.mk.injEq] at h
              obtain ⟨rfl, rfl⟩ := h
              have hallgs : ∀ g ∈ gs, g ∈ directGroups c root := by
                intro g hg
                exact hall _ (List.mem_cons_self _ _) g (by simpa [pageGroups] using hg)
              obtain ⟨hr1, hc1⟩ :=
                processGroups_reach getG c root hGinv hGreach gs checked ug1 ch1 hallgs hpg
              obtain ⟨hr2, hc2⟩ :=
                ih ch1 ug2 ch2 (fun pr' hpr' => hall pr' (List.mem_cons_of_mem _ hpr')) hrest
              have hsub12 : ∀ x, x ∈ ch1 → x ∈ ch2 := by
                obtain ⟨hsh2, _, _⟩ :=
                  processPages_ok_inv getG true hGinv rest ch1 ug2 ch2 hrest
                rw [hsh2]
                exact fun x hx => List.mem_append_right _ hx
              constructor
              · intro x hx
                rcases List.mem_append.mp hx with hx | hx
                · exact hr1 x hx
                · exact hr2 x hx
              · intro y hy x hx
                rcases List.mem_append.mp hy with hy | hy
                · exact hsub12 x (hc1 y hy x hx)
                · exact hc2 y hy x hx

theorem getGroups_reach (c : googleConnector) :
    ∀ fuel email checked ug ch',
      getGroups c fuel email true checked = some (.ok (ug, ch')) →
      (∀ x ∈ ug, Reachable c email x) ∧
      (∀ y ∈ ug, ∀ x ∈ directGroups c y, x ∈ ch') := by
  intro fuel
  induction fuel with
  | zero => intro email checked ug ch' h; simp [getGroups] at h
  | succ fuel ih =>
    intro email checked ug ch' h
    rw [getGroups] at h
    cases hr : findAdminService c (extractDomainFromEmail email) with
    | error e => rw [hr] at h; simp at h
    | ok srv =>
      rw [hr] at h
      have hGinv : ∀ g ch tg ch'', getGroups c fuel g true ch = some (.ok (tg, ch'')) →
          ch'' = tg.reverse ++ ch ∧ (ch.Nodup → ch''.Nodup) := by
        intro g ch tg ch'' hg
        obtain ⟨h1, h2, _⟩ := getGroups_ok_inv c fuel g true ch tg ch'' hg
        exact ⟨h1, h2⟩
      have hGreach : ∀ g ch tg ch'', getGroups c fuel g true ch = some (.ok (tg, ch'')) →
          (∀ x ∈ tg, Reachable c g x) ∧ (∀ x ∈ directGroups c g, x ∈ ch'') ∧
          (∀ y ∈ tg, ∀ x ∈ directGroups c y, x ∈ ch'') := by
        intro g ch tg ch'' hg
        obtain ⟨h1, h2⟩ := ih g ch tg ch'' hg
        obtain ⟨_, _, h3⟩ := getGroups_ok_inv c fuel g true ch tg ch'' hg
        exact ⟨h1, h3, h2⟩
      have hallp : ∀ pr ∈ srv.pagesFor email, ∀ g ∈ pageGroups pr,
          g ∈ directGroups c email := by
        intro pr hpr g hg
        rw [directGroups, hr, List.mem_flatten]
        exact ⟨pageGroups pr, List.mem_map_of_mem _ hpr, hg⟩
      exact processPages_reach _ c email hGinv hGreach (srv.pagesFor email) checked ug ch' hallp h

/-! ### Claim theorems -/

/-- C1: for every group-membership graph, including cyclic ones, `getGroups`
(`ResolveGroups`) with transitive expansion enabled and a fresh empty visited
set terminates — the computable fuel bound `uncheckedCount c checked + 1`
always yields a finished result — and each reachable group identifier appears
exactly once in the returned sequence (no duplicates, and membership is
exactly reachability), because a group already in the visited set is never
expanded again. -/
theorem claim_C1_transitive_resolution_terminates_each_reachable_once :
    (∀ (c : googleConnector) (email : String) (trans : Bool) (checked : List String),
      ∃ r, getGroups c (uncheckedCount c checked + 1) email trans checked = some r) ∧
    (∀ (c : googleConnector) (email : String) (fuel : Nat) (ug ch' : List String),
      getGroups c fuel email true [] = some (.ok (ug, ch')) →
      ug.Nodup ∧ ∀ g, g ∈ ug ↔ Reachable c email g) := by
  constructor
  · intro c email trans checked
    have h := getGroups_isSome c (uncheckedCount c checked + 1) email trans checked (by omega)
    exact Option.isSome_iff_exists.mp h
  · intro c email fuel ug ch' h
    obtain ⟨hsh, hnd, hdir⟩ := getGroups_ok_inv c fuel email true [] ug ch' h
    obtain ⟨hreach, hclo⟩ := getGroups_reach c fuel email [] ug ch' h
    have hch : ch' = ug.reverse := by simpa using hsh
    have hnodup : ug.Nodup := by
      have h2 := hnd (by simp)
      rw [hch] at h2
      simpa using h2
    refine ⟨hnodup, ?_⟩
    intro g
    constructor
    · exact hreach g
    · intro hg
      have hin : g ∈ ch' := by
        induction hg with
        | direct hx => exact hdir _ hx
        | step hy hx ih =>
          refine hclo _ ?_ _ hx
          rw [hch] at ih
          simpa using ih
      rw [hch] at hin
      simpa using hin

/-- Witness for C1: the cyclic two-group directory resolves to each of the two
groups exactly once. -/
theorem claim_C1_witness :
    (["a@x.com", "b@x.com"] : List String).Nodup ∧
    (∀ g, g ∈ (["a@x.com", "b@x.com"] : List String) ↔
      Reachable cycleConn "user@x.com" g) :=
  claim_C1_transitive_resolution_terminates_each_reachable_once.2 cycleConn
    "user@x.com" 4 ["a@x.com", "b@x.com"] ["b@x.com", "a@x.com"] rfl

/-- C2: with transitive expansion disabled and a fresh empty visited set the
resolution returns exactly the direct memberships, unexpanded (first
occurrences kept by the visited set); in the concrete scenario alice resolves
to `[eng@example.com]` with expansion off and
`[eng@example.com, all@example.com]` with it on. -/
theorem claim_C2_nontransitive_returns_direct_memberships :
    (∀ (c : googleConnector) (email : String) (fuel : Nat),
      getGroups c (fuel + 1) email false [] =
        (match directMemberships c email with
         | .error e => some (.error e)
         | .ok l => some (.ok (dedupFirst l, (dedupFirst l).reverse)))) ∧
    (getGroups aliceConn 4 "alice@example.com" false [] =
      some (.ok (["eng@example.com"], ["eng@example.com"]))) ∧
    (getGroups aliceConn 4 "alice@example.com" true [] =
      some (.ok (["eng@example.com", "all@example.com"],
        ["all@example.com", "eng@example.com"]))) ∧
    (directMemberships aliceConn "alice@example.com" = .ok ["eng@example.com"]) := by
  refine ⟨?_, rfl, rfl, rfl⟩
  intro c email fuel
  rw [getGroups_false c fuel email []]
  cases hd : directMemberships c email with
  | error e => rfl
  | ok l => simp [dedupFirst]

/-- C3: group resolution derives the tenant domain as the substring after the
last `@` (wildcard when no `@` is present), looks up the directory client for
that domain, falls back to the wildcard entry when the domain has no explicit
entry, and fails with the routing error — for every directory content, hence
before any directory call — when neither entry exists. -/
theorem claim_C3_domain_routing_with_wildcard_fallback :
    (∀ localPart domain : String, '@' ∉ domain.toList →
      extractDomainFromEmail (localPart ++ "@" ++ domain) = domain) ∧
    (∀ email : String, '@' ∉ email.toList →
      extractDomainFromEmail email = wildcardDomainToAdminEmail) ∧
    (∀ (c : googleConnector) (d : String) (srv : AdminService),
      c.adminSrv.lookup d = some srv → findAdminService c d = .ok srv) ∧
    (∀ (c : googleConnector) (d : String) (srv : AdminService),
      c.adminSrv.lookup d = none →
      c.adminSrv.lookup wildcardDomainToAdminEmail = some srv →
      findAdminService c d = .ok srv) ∧
    (∀ (c : googleConnector) (d : String), c.adminSrv.lookup d = none →
      c.adminSrv.lookup wildcardDomainToAdminEmail = none →
      findAdminService c d = .error (.noDirectoryRoute d)) ∧
    (∀ (c : googleConnector) (fuel : Nat) (email : String) (trans : Bool)
        (checked : List String),
      c.adminSrv.lookup (extractDomainFromEmail email) = none →
      c.adminSrv.lookup wildcardDomainToAdminEmail = none →
      getGroups c (fuel + 1) email trans checked =
        some (.error (.noDirectoryRoute (extractDomainFromEmail email)))) := by
  have hfind : ∀ (c : googleConnector) (d : String),
      c.adminSrv.lookup d = none →
      c.adminSrv.lookup wildcardDomainToAdminEmail = none →
      findAdminService c d = .error (.noDirectoryRoute d) := by
    intro c d h1 h2
    rw [findAdminService, h1, h2]
  refine ⟨?_, ?_, ?_, ?_, hfind, ?_⟩
  · intro localPart domain hdom
    have htl : (localPart ++ "@" ++ domain).toList =
        localPart.toList ++ '@' :: domain.toList := by
      have h0 : (localPart ++ "@" ++ domain).toList =
          (localPart.toList ++ ['@']) ++ domain.toList := rfl
      rw [h0]
      simp
    have hcont : (localPart ++ "@" ++ domain).toList.contains '@' = true := by
      rw [htl]
      exact List.elem_iff.mpr (by simp)
    rw [extractDomainFromEmail, if_pos hcont, htl]
    have hrev : (localPart.toList ++ '@' :: domain.toList).reverse =
        domain.toList.reverse ++ '@' :: localPart.toList.reverse := by
      simp
    rw [hrev]
    rw [takeWhile_append_stop domain.toList.reverse localPart.toList.reverse ?hall ?hat]
    case hall =>
      intro x hx
      simp only [ne_eq, decide_eq_true_eq]
      rintro rfl
      exact hdom (List.mem_reverse.mp hx)
    case hat => simp
    rw [List.reverse_reverse]
    rfl
  · intro email hdom
    rw [extractDomainFromEmail, if_neg]
    intro hc
    exact hdom (List.elem_iff.mp hc)
  · intro c d srv h1
    rw [findAdminService, h1]
  · intro c d srv h1 h2
    rw [findAdminService, h1, h2]
  · intro c fuel email trans checked h1 h2
    rw [getGroups, hfind c (extractDomainFromEmail email) h1 h2]

/-- Witness for C3: the domain of a concrete address is the part after `@`. -/
theorem claim_C3_witness :
    extractDomainFromEmail ("alice" ++ "@" ++ "example.com") = "example.com" :=
  claim_C3_domain_routing_with_wildcard_fallback.1 "alice" "example.com" (by decide)

/-- C6: a failed paging call at any depth aborts the whole resolution with an
error and no group list.  A failing page after successfully processed pages
turns the accumulated result into an error; an error from a transitive
expansion propagates (wrapped) to the caller; an error from the paging loop is
the result of `getGroups` itself; concretely, a directory failing on the
user's second page discards the group reported by the first. -/
theorem claim_C6_failure_aborts_resolution_discarding_partial_results :
    (∀ (getG : String → List String → GroupsResult) (trans : Bool)
        (ps1 : List PageResult) (e : String) (ps2 : List PageResult)
        (checked ug ch1 : List String),
      processPages getG trans ps1 checked = some (.ok (ug, ch1)) →
      processPages getG trans (ps1 ++ .error e :: ps2) checked =
        some (.error (.listGroups e))) ∧
    (∀ (c : googleConnector) (fuel : Nat) (g : String) (rest : List String)
        (checked : List String) (e : GroupsError), ¬ checked.contains g = true →
      getGroups c fuel g true (g :: checked) = some (.error e) →
      processGroups (fun g' ch => getGroups c fuel g' true ch) true (g :: rest) checked =
        some (.error (.listTransitiveGroups e))) ∧
    (∀ (c : googleConnector) (fuel : Nat) (email : String) (trans : Bool)
        (checked : List String) (srv : AdminService) (e : GroupsError),
      findAdminService c (extractDomainFromEmail email) = .ok srv →
      processPages (fun g ch => getGroups c fuel g trans ch) trans
        (srv.pagesFor email) checked = some (.error e) →
      getGroups c (fuel + 1) email trans checked = some (.error e)) ∧
    (getGroups failConn 5 "user@x.com" true [] =
      some (.error (.listGroups "boom"))) := by
  refine ⟨?_, ?_, ?_, rfl⟩
  · intro getG trans ps1
    induction ps1 with
    | nil =>
      intro e ps2 checked ug ch1 h
      simp [processPages]
    | cons pr ps1 ih =>
      intro e ps2 checked ug ch1 h
      cases pr with
      | error e0 => simp only [processPages] at h; simp at h
      | ok gs =>
        simp only [List.cons_append, processPages] at h ⊢
        cases hpg : processGroups getG trans gs checked with
        | none => rw [hpg] at h; simp at h
        | some r =>
          rw [hpg] at h
          cases r with
          | error e0 => simp at h
          | ok p =>
            obtain ⟨ug1, chm⟩ := p
            simp only at h
            dsimp only
            cases hrest : processPages getG trans ps1 chm with
            | none => rw [hrest] at h; simp at h
            | some r2 =>
              rw [hrest] at h
              cases r2 with
              | error e0 => simp at h
              | ok p2 =>
                obtain ⟨ug2, ch2⟩ := p2
                simp only [List.append_eq]
                rw [ih e ps2 chm ug2 ch2 hrest]
  · intro c fuel g rest checked e hc hErr
    simp only [processGroups]
    rw [if_neg hc, if_pos trivial, hErr]
  · intro c fuel email trans checked srv e hr hpp
    rw [getGroups, hr]
    exact hpp

/-- Witness for C6: a failing second page discards the first page's group. -/
theorem claim_C6_witness :
    processPages (fun _ _ => (none : GroupsResult)) false
      ([.ok ["a@x.com"]] ++ .error "boom" :: []) [] =
      some (.error (.listGroups "boom")) :=
  claim_C6_failure_aborts_resolution_discarding_partial_results.1
    (fun _ _ => none) false [.ok ["a@x.com"]] "boom" [] [] ["a@x.com"] ["a@x.com"] rfl

/-- C7: a callback whose query carries a non-empty `error` parameter fails with
the provider-denied error carrying the `error` and `error_description` strings
verbatim, for every exchanger — the outcome does not depend on the token
exchange at all; concretely for `error=access_denied` and
`error_description=user cancelled`. -/
theorem claim_C7_provider_error_short_circuits_callback :
    (∀ (c : googleConnector) (verify : String → Except String IDToken)
        (exchange : String → Except String TokenResponse) (fuel : Nat)
        (sGroups : Bool) (q : List (String × String)), qGet q "error" ≠ "" →
      HandleCallback c verify exchange fuel sGroups q =
        some (.error (.providerDenied (qGet q "error")
          (qGet q "error_description")))) ∧
    (∀ (c : googleConnector) (verify : String → Except String IDToken)
        (exchange : String → Except String TokenResponse) (fuel : Nat)
        (sGroups : Bool),
      HandleCallback c verify exchange fuel sGroups
        [("error", "access_denied"), ("error_description", "user cancelled")] =
        some (.error (.providerDenied "access_denied" "user cancelled"))) := by
  constructor
  · intro c verify exchange fuel sGroups q h
    simp only [HandleCallback]
    rw [if_pos h]
  · intro c verify exchange fuel sGroups
    rfl

/-- Witness for C7 at a concrete query. -/
theorem claim_C7_witness :
    HandleCallback exConn (fun _ => .error "") (fun _ => .error "") 1 false
      [("error", "x")] = some (.error (.providerDenied "x" "")) :=
  claim_C7_provider_error_short_circuits_callback.1 exConn
    (fun _ => .error "") (fun _ => .error "") 1 false [("error", "x")] (by decide)

/-- C8: `LoginURL` attaches an `hd` parameter equal to the single configured
hosted domain when exactly one is allowed, the wildcard `*` when more than one
is allowed, and no `hd` parameter when the whitelist is empty. -/
theorem claim_C8_login_hint_parameter :
    ∀ (c : googleConnector) (offlineAccess : Bool) (callbackURL state : String)
      (stateOut : String) (opts : List (String × String)),
      LoginURL c offlineAccess callbackURL state = .ok (stateOut, opts) →
      (c.hostedDomains = [] → opts.lookup "hd" = none) ∧
      (∀ d, c.hostedDomains = [d] → opts.lookup "hd" = some d) ∧
      (2 ≤ c.hostedDomains.length → opts.lookup "hd" = some "*") := by
  intro c offlineAccess callbackURL state stateOut opts h
  rw [LoginURL] at h
  by_cases hcb : c.redirectURI ≠ callbackURL
  · rw [if_pos hcb] at h
    simp at h
  · rw [if_neg hcb] at h
    simp only [Except.ok.injEq, Prod.mk.injEq] at h
    obtain ⟨rfl, rfl⟩ := h
    refine ⟨?_, ?_, ?_⟩
    · intro hD
      cases offlineAccess <;> simp [hD, List.lookup]
    · intro d hD
      cases offlineAccess <;> simp [hD, List.lookup]
    · intro hlen
      have h0 : c.hostedDomains.length > 0 := by omega
      have h1 : c.hostedDomains.length > 1 := by omega
      cases offlineAccess <;> simp [if_pos h0, if_pos h1, List.lookup]

/-- Witness for C8 with the single-domain whitelist connector. -/
theorem claim_C8_witness :
    ([("hd", "example.com")] : List (String × String)).lookup "hd" =
      some "example.com" :=
  (claim_C8_login_hint_parameter exConn false "" "st" "st"
    [("hd", "example.com")] rfl).2.1 "example.com" rfl

/-- C4: identity assembly fails with the hosted-domain error exactly when the
whitelist is non-empty and the claim is string-equal to none of its entries;
matching is exact — a case variant of a whitelisted domain is rejected. -/
theorem claim_C4_hosted_domain_exact_whitelist :
    (∀ (c : googleConnector) (verify : String → Except String IDToken) (fuel : Nat)
        (sGroups : Bool) (token : TokenResponse) (raw : String) (idt : IDToken),
      token.idToken = some raw → verify raw = .ok idt →
      (createIdentity c verify fuel sGroups token =
          some (.error (.domainNotAllowed idt.claims.hostedDomain)) ↔
        ¬ (c.hostedDomains = [] ∨ idt.claims.hostedDomain ∈ c.hostedDomains))) ∧
    (createIdentity exConn exVerify 1 false exToken =
      some (.error (.domainNotAllowed "Example.com"))) := by
  refine ⟨?_, rfl⟩
  intro c verify fuel sGroups token raw idt h1 h2
  rw [createIdentity, h1]
  dsimp only
  rw [h2]
  dsimp only
  by_cases hcnd : (c.hostedDomains.length > 0 ∧
      ¬ (c.hostedDomains.any (fun domain => idt.claims.hostedDomain == domain) = true))
  · rw [if_pos hcnd]
    obtain ⟨hlen, hany⟩ := hcnd
    constructor
    · rintro - (hD | hmem)
      · rw [hD] at hlen; simp at hlen
      · exact hany (List.any_eq_true.mpr ⟨_, hmem, by simp⟩)
    · intro _; rfl
  · rw [if_neg hcnd]
    have hpass : c.hostedDomains = [] ∨ idt.claims.hostedDomain ∈ c.hostedDomains := by
      by_contra hn
      push_neg at hn
      refine hcnd ⟨List.length_pos.mpr hn.1, fun hany => ?_⟩
      obtain ⟨x, hx, hbx⟩ := List.any_eq_true.mp hany
      obtain rfl : idt.claims.hostedDomain = x := by simpa using hbx
      exact hn.2 hx
    simp only [hpass, not_true_eq_false, iff_false]
    intro heq
    by_cases hsg : (sGroups = true ∧ c.adminSrv.length > 0)
    · rw [if_pos hsg] at heq
      cases hgg : getGroups c fuel idt.claims.email c.fetchTransitiveGroupMembership [] with
      | none => rw [hgg] at heq; simp at heq
      | some r =>
        rw [hgg] at heq
        cases r with
        | error e => simp at heq
        | ok p =>
          obtain ⟨gl, ch⟩ := p
          dsimp only at heq
          by_cases hgw : c.groups.length > 0
          · rw [if_pos hgw] at heq
            by_cases hf0 : (pkgGroupsFilter gl c.groups).length = 0
            · rw [if_pos hf0] at heq; simp at heq
            · rw [if_neg hf0] at heq; simp at heq
          · rw [if_neg hgw] at heq; simp at heq
    · rw [if_neg hsg] at heq
      simp at heq

/-- Witness for C4 at the concrete case-variant hosted-domain claim. -/
theorem claim_C4_witness :
    (createIdentity exConn exVerify 1 false exToken =
        some (.error (.domainNotAllowed "Example.com"))) ↔
      ¬ (exConn.hostedDomains = [] ∨ "Example.com" ∈ exConn.hostedDomains) :=
  claim_C4_hosted_domain_exact_whitelist.1 exConn exVerify 1 false exToken "raw"
    ⟨"sub-1", ⟨"Alice", "alice@example.com", true, "Example.com"⟩⟩ rfl rfl

/-- C5: with a non-empty group whitelist, a successful resolution `R` ends in
an identity whose groups are exactly the whitelist intersection
`pkgGroupsFilter R c.groups` (in `R`'s order), and when that intersection is
empty the login fails with the no-authorized-group error instead. -/
theorem claim_C5_group_whitelist_intersection :
    ∀ (c : googleConnector) (verify : String → Except String IDToken) (fuel : Nat)
      (token : TokenResponse) (raw : String) (idt : IDToken) (R ch : List String),
      token.idToken = some raw → verify raw = .ok idt →
      (c.hostedDomains = [] ∨ idt.claims.hostedDomain ∈ c.hostedDomains) →
      0 < c.adminSrv.length → 0 < c.groups.length →
      getGroups c fuel idt.claims.email c.fetchTransitiveGroupMembership [] =
        some (.ok (R, ch)) →
      (pkgGroupsFilter R c.groups = [] →
        createIdentity c verify fuel true token =
          some (.error (.noAuthorizedGroup idt.claims.username))) ∧
      (pkgGroupsFilter R c.groups ≠ [] →
        createIdentity c verify fuel true token =
          some (.ok { userID := idt.subject, username := idt.claims.username,
                      email := idt.claims.email,
                      emailVerified := idt.claims.emailVerified,
                      connectorData := token.refreshToken,
                      groups := pkgGroupsFilter R c.groups })) := by
  intro c verify fuel token raw idt R ch h1 h2 hdompass hA hG hresolve
  have hdcond : ¬ (c.hostedDomains.length > 0 ∧
      ¬ (c.hostedDomains.any (fun domain => idt.claims.hostedDomain == domain) = true)) := by
    rcases hdompass with hD | hmem
    · rintro ⟨hlen, -⟩; rw [hD] at hlen; simp at hlen
    · rintro ⟨-, hany⟩; exact hany (List.any_eq_true.mpr ⟨_, hmem, by simp⟩)
  constructor
  · intro hempty
    rw [createIdentity, h1]
    dsimp only
    rw [h2]
    dsimp only
    rw [if_neg hdcond, if_pos ⟨rfl, hA⟩, hresolve]
    dsimp only
    rw [if_pos hG, if_pos (by rw [hempty]; rfl)]
  · intro hne
    rw [createIdentity, h1]
    dsimp only
    rw [h2]
    dsimp only
    rw [if_neg hdcond, if_pos ⟨rfl, hA⟩, hresolve]
    dsimp only
    rw [if_pos hG, if_neg (fun h0 => hne (List.length_eq_zero.mp h0))]

/-- Witness for C5 at the concrete alice scenario with whitelist
`["eng@example.com"]`. -/
theorem claim_C5_witness :
    createIdentity c5Conn exVerify 4 true exToken =
      some (.ok ⟨"sub-1", "Alice", "alice@example.com", true, "refresh-1",
        ["eng@example.com"]⟩) :=
  (claim_C5_group_whitelist_intersection c5Conn exVerify 4 exToken "raw"
    ⟨"sub-1", ⟨"Alice", "alice@example.com", true, "Example.com"⟩⟩
    ["eng@example.com", "all@example.com"] ["all@example.com", "eng@example.com"]
    rfl rfl (Or.inl rfl) (by decide) (by decide) rfl).2 (by decide)

/-- C9: when the groups scope is not requested, or no directory client was
constructed, identity assembly performs no group resolution and does not
enforce the group whitelist: it succeeds with an empty group set even when
the configured whitelist is non-empty. -/
theorem claim_C9_whitelist_not_enforced_without_resolution :
    ∀ (c : googleConnector) (verify : String → Except String IDToken) (fuel : Nat)
      (sGroups : Bool) (token : TokenResponse) (raw : String) (idt : IDToken),
      token.idToken = some raw → verify raw = .ok idt →
      (c.hostedDomains = [] ∨ idt.claims.hostedDomain ∈ c.hostedDomains) →
      (sGroups = false ∨ c.adminSrv = []) →
      createIdentity c verify fuel sGroups token =
        some (.ok { userID := idt.subject, username := idt.claims.username,
                    email := idt.claims.email,
                    emailVerified := idt.claims.emailVerified,
                    connectorData := token.refreshToken, groups := [] }) := by
  intro c verify fuel sGroups token raw idt h1 h2 hdompass hskip
  have hdcond : ¬ (c.hostedDomains.length > 0 ∧
      ¬ (c.hostedDomains.any (fun domain => idt.claims.hostedDomain == domain) = true)) := by
    rcases hdompass with hD | hmem
    · rintro ⟨hlen, -⟩; rw [hD] at hlen; simp at hlen
    · rintro ⟨-, hany⟩; exact hany (List.any_eq_true.mpr ⟨_, hmem, by simp⟩)
  have hskipcond : ¬ ((sGroups = true) ∧ c.adminSrv.length > 0) := by
    rcases hskip with rfl | hA
    · rintro ⟨h, -⟩; exact absurd h (by simp)
    · rintro ⟨-, hlen⟩; rw [hA] at hlen; simp at hlen
  rw [createIdentity, h1]
  dsimp only
  rw [h2]
  dsimp only
  rw [if_neg hdcond, if_neg hskipcond]

/-- Witness for C9: a connector with a non-empty whitelist but empty routing
table still logs the user in with no groups. -/
theorem claim_C9_witness :
    createIdentity c9Conn exVerify 1 true exToken =
      some (.ok ⟨"sub-1", "Alice", "alice@example.com", true, "refresh-1", []⟩) :=
  claim_C9_whitelist_not_enforced_without_resolution c9Conn exVerify 1 true exToken
    "raw" ⟨"sub-1", ⟨"Alice", "alice@example.com", true, "Example.com"⟩⟩ rfl rfl
    (Or.inl rfl) (Or.inr rfl)

/-- Every successful identity assembly stores exactly the token response's
refresh token as the reauthentication data. -/
theorem createIdentity_ok_connectorData
    {c : googleConnector} {verify : String → Except String IDToken} {fuel : Nat}
    {sGroups : Bool} {token : TokenResponse} {i : Identity}
    (h : createIdentity c verify fuel sGroups token = some (.ok i)) :
    i.connectorData = token.refreshToken := by
  rw [createIdentity] at h
  cases h1 : token.idToken with
  | none => rw [h1] at h; simp at h
  | some raw =>
    rw [h1] at h
    dsimp only at h
    cases h2 : verify raw with
    | error e => rw [h2] at h; simp at h
    | ok idt =>
      rw [h2] at h
      dsimp only at h
      by_cases hcnd : (c.hostedDomains.length > 0 ∧
          ¬ (c.hostedDomains.any (fun domain => idt.claims.hostedDomain == domain) = true))
      · rw [if_pos hcnd] at h; simp at h
      · rw [if_neg hcnd] at h
        by_cases hsg : (sGroups = true ∧ c.adminSrv.length > 0)
        · rw [if_pos hsg] at h
          cases hgg : getGroups c fuel idt.claims.email c.fetchTransitiveGroupMembership [] with
          | none => rw [hgg] at h; simp at h
          | some r =>
            rw [hgg] at h
            cases r with
            | error e => simp at h
            | ok p =>
              obtain ⟨gl, ch⟩ := p
              dsimp only at h
              by_cases hgw : c.groups.length > 0
              · rw [if_pos hgw] at h
                by_cases hf0 : (pkgGroupsFilter gl c.groups).length = 0
                · rw [if_pos hf0] at h; simp at h
                · rw [if_neg hf0] at h
                  simp only [Option.some.injEq, Except.ok.injEq] at h
                  rw [← h]
              · rw [if_neg hgw] at h
                simp only [Option.some.injEq, Except.ok.injEq] at h
                rw [← h]
        · rw [if_neg hsg] at h
          simp only [Option.some.injEq, Except.ok.injEq] at h
          rw [← h]

/-- C10: every successful identity assembly sets the stored reauthentication
token to exactly the refresh token of the new token response; a refresh whose
token response carries an empty refresh token overwrites the previously
stored one with the empty string rather than preserving it. -/
theorem claim_C10_reauth_token_overwritten :
    (∀ (c : googleConnector) (verify : String → Except String IDToken) (fuel : Nat)
        (sGroups : Bool) (token : TokenResponse) (i : Identity),
      createIdentity c verify fuel sGroups token = some (.ok i) →
      i.connectorData = token.refreshToken) ∧
    (∀ (c : googleConnector) (verify : String → Except String IDToken)
        (tokenSource : String → Except String TokenResponse) (fuel : Nat)
        (sGroups : Bool) (base : Identity) (token : TokenResponse) (i : Identity),
      tokenSource base.connectorData = .ok token → token.refreshToken = "" →
      Refresh c verify tokenSource fuel sGroups base = some (.ok i) →
      i.connectorData = "") := by
  constructor
  · intro c verify fuel sGroups token i h
    exact createIdentity_ok_connectorData h
  · intro c verify tokenSource fuel sGroups base token i hts hrt h
    rw [Refresh, hts] at h
    dsimp only at h
    cases hci : createIdentity c verify fuel sGroups token with
    | none => rw [hci] at h; simp at h
    | some r =>
      rw [hci] at h
      cases r with
      | error e => simp at h
      | ok i0 =>
        obtain rfl : i0 = i := by simpa using h
        rw [createIdentity_ok_connectorData hci, hrt]

/-- Witness for C10: refreshing with a response lacking a refresh token leaves
the empty string stored. -/
theorem claim_C10_witness :
    (⟨"sub-1", "Alice", "alice@example.com", true, "", []⟩ : Identity).connectorData
      = "" :=
  claim_C10_reauth_token_overwritten.2 aliceConn exVerify
    (fun _ => .ok ⟨some "raw", ""⟩) 1 false ⟨"u", "n", "e", true, "old", []⟩
    ⟨some "raw", ""⟩ ⟨"sub-1", "Alice", "alice@example.com", true, "", []⟩
    rfl rfl rfl

end Google
